import Mathlib

/-!
Verification of the conan recipe extraction engine
(repology/parsers/parsers/conan.py).

The YAML document model: a node is a string scalar, a non-string scalar
(number, boolean, null), a sequence, or a mapping.  Python dicts are
modelled as association lists in insertion order (Python dict keys are
unique and iteration follows insertion order).
-/

inductive Data where
  | str : String → Data
  | other : Data
  | seq : List Data → Data
  | map : List (String × Data) → Data

/- Embedding of `_traverse_arbitrary_structure`.  The Python function calls
a side-effecting handler on each string scalar; we model it as returning the
list of (tags, value) pairs in the order the handler would be invoked:
lists recurse with unchanged tags, dicts recurse with `tags + [key]`,
string scalars produce one handler call, other scalars produce none. -/
mutual
def _traverse_arbitrary_structure : Data → List String → List (List String × String)
  | Data.str s, tags => [(tags, s)]
  | Data.other, _ => []
  | Data.seq items, tags => traverseSeq items tags
  | Data.map kvs, tags => traverseMap kvs tags

def traverseSeq : List Data → List String → List (List String × String)
  | [], _ => []
  | d :: ds, tags => _traverse_arbitrary_structure d tags ++ traverseSeq ds tags

def traverseMap : List (String × Data) → List String → List (List String × String)
  | [], _ => []
  | (k, d) :: kvs, tags => _traverse_arbitrary_structure d (tags ++ [k]) ++ traverseMap kvs tags
end

/-!
Independent path semantics used to state the walker's specification.
A path step selects a child by position (and, for mappings, by key);
`getAt` is a positional accessor into the document, defined separately from
the walker so that theorems about the walker are grounded in it.
-/

inductive PathStep where
  | inSeq : Nat → PathStep
  | inMap : Nat → String → PathStep
deriving DecidableEq, Repr

/-- The sibling position a path step selects. -/
def stepIdx : PathStep → Nat
  | PathStep.inSeq i => i
  | PathStep.inMap i _ => i

/-- Positional accessor: follow a path of child selections from the root. -/
def getAt : Data → List PathStep → Option Data
  | d, [] => some d
  | Data.seq items, PathStep.inSeq i :: p =>
      match items.get? i with
      | some d => getAt d p
      | none => none
  | Data.map kvs, PathStep.inMap i k :: p =>
      match kvs.get? i with
      | some kv => if kv.1 = k then getAt kv.2 p else none
      | none => none
  | _, _ => none

/-- The mapping keys along a path, in order; sequence steps contribute none. -/
def keysOf (p : List PathStep) : List String :=
  p.filterMap (fun st => match st with
    | PathStep.inSeq _ => none
    | PathStep.inMap _ k => some k)

/- Document-order enumeration of the paths to all string-scalar leaves,
together with the scalar found there. -/
mutual
def stringLeafPaths : Data → List (List PathStep × String)
  | Data.str s => [([], s)]
  | Data.other => []
  | Data.seq items => slpSeq items 0
  | Data.map kvs => slpMap kvs 0

def slpSeq : List Data → Nat → List (List PathStep × String)
  | [], _ => []
  | d :: ds, i =>
      (stringLeafPaths d).map (fun ps => (PathStep.inSeq i :: ps.1, ps.2)) ++ slpSeq ds (i + 1)

def slpMap : List (String × Data) → Nat → List (List PathStep × String)
  | [], _ => []
  | (k, d) :: kvs, i =>
      (stringLeafPaths d).map (fun ps => (PathStep.inMap i k :: ps.1, ps.2)) ++ slpMap kvs (i + 1)
end

/-- Strict lexicographic document order on paths, comparing sibling
positions step by step. -/
def pathLtb : List PathStep → List PathStep → Bool
  | _, [] => false
  | [], _ :: _ => true
  | a :: as, b :: bs => decide (stepIdx a < stepIdx b) || (a == b && pathLtb as bs)

/-!
URL collection (`_extract_url_infos`): the Python handler appends a
`_UrlInfo` whenever the current tags contain 'url' and do not contain
'sha256'; the result is therefore the in-order filtered leaf list.
-/

structure UrlInfo where
  tags : List String
  url : String
deriving DecidableEq, Repr

/-- Embedding of `_extract_url_infos`. -/
def _extract_url_infos (data : Data) : List UrlInfo :=
  ((_traverse_arbitrary_structure data []).filter
      (fun pr => pr.1.contains "url" && !(pr.1.contains "sha256"))).map
    (fun pr => UrlInfo.mk pr.1 pr.2)

/-- Python dict read `d[k]` (keys are unique in a Python dict, so the first
binding is the binding). -/
def dictLookup {α : Type} (d : List (String × α)) (k : String) : Option α :=
  match d.find? (fun pr => pr.1 == k) with
  | some pr => some pr.2
  | none => none

structure VersionInfo where
  version : String
  url_infos : List UrlInfo
deriving DecidableEq, Repr

/-- The ways extraction fails in Python: `conandata['sources']` raises
KeyError when the key is absent, `.items()` raises AttributeError when the
value is not a dict; same for `conandata['patches']`. -/
inductive StructureError where
  | sourcesMissing : StructureError
  | sourcesNotMapping : StructureError
  | patchesNotMapping : StructureError
deriving DecidableEq, Repr

/-- Embedding of `_extract_version_infos`: one `_VersionInfo` per entry of
the `sources` mapping, in iteration order; raises when `sources` is absent
or not a mapping.  (The Python generator raises on its first step, before
yielding anything, which the `Except` error models.) -/
def _extract_version_infos (conandata : List (String × Data)) :
    Except StructureError (List VersionInfo) :=
  match dictLookup conandata "sources" with
  | none => Except.error StructureError.sourcesMissing
  | some (Data.map versions) =>
      Except.ok (versions.map (fun vd => VersionInfo.mk vd.1 (_extract_url_infos vd.2)))
  | some _ => Except.error StructureError.sourcesNotMapping

/-- The patch handler's collected leaves for one version's sub-structure:
leaves whose tags are empty or end in 'patch_file', in traversal order. -/
def patchLeaves (data : Data) : List String :=
  ((_traverse_arbitrary_structure data []).filter
      (fun pr => pr.1.isEmpty || pr.1.getLast? == some "patch_file")).map
    (fun pr => pr.2)

/-- `result[version].append(x)` on a `defaultdict(list)`: append to the
existing entry, or create the key at the end with a one-element list. -/
def dictPush (d : List (String × List String)) (k : String) (x : String) :
    List (String × List String) :=
  if d.any (fun pr => pr.1 == k) then
    d.map (fun pr => if pr.1 == k then (pr.1, pr.2 ++ [x]) else pr)
  else
    d ++ [(k, [x])]

/-- Embedding of `_extract_patches`: absent `patches` key gives an empty
result; a non-mapping `patches` value raises (AttributeError on `.items()`),
modelled as `none`; otherwise each version's qualifying leaves are appended
into a `defaultdict(list)` in iteration order. -/
def _extract_patches (conandata : List (String × Data)) :
    Option (List (String × List String)) :=
  match dictLookup conandata "patches" with
  | none => some []
  | some (Data.map versions) =>
      some (versions.foldl
        (fun res vd => (patchLeaves vd.2).foldl (fun r x => dictPush r vd.1 x) res) [])
  | some _ => none

/-!
Model of the Python AST fragment consumed by `_parse_conanfile` and
`_parse_class_attributes`.  Expressions distinguish names, literal
constants, literal containers, and everything else (calls, operators,
comprehensions, ...), which `ast.literal_eval` rejects with ValueError.
-/

inductive PyExpr where
  | name : String → PyExpr
  | strLit : String → PyExpr
  | intLit : Int → PyExpr
  | boolLit : Bool → PyExpr
  | noneLit : PyExpr
  | listLit : List PyExpr → PyExpr
  | tupleLit : List PyExpr → PyExpr
  | otherExpr : PyExpr

inductive PyVal where
  | str : String → PyVal
  | int : Int → PyVal
  | bool : Bool → PyVal
  | none : PyVal
  | list : List PyVal → PyVal
  | tuple : List PyVal → PyVal

/- `ast.literal_eval`: evaluates literal constants and literal containers of
literals; anything else raises ValueError, modelled as `Option.none`. -/
mutual
def literal_eval : PyExpr → Option PyVal
  | PyExpr.strLit s => some (PyVal.str s)
  | PyExpr.intLit n => some (PyVal.int n)
  | PyExpr.boolLit b => some (PyVal.bool b)
  | PyExpr.noneLit => some PyVal.none
  | PyExpr.listLit es =>
      match literalEvalList es with
      | some vs => some (PyVal.list vs)
      | Option.none => Option.none
  | PyExpr.tupleLit es =>
      match literalEvalList es with
      | some vs => some (PyVal.tuple vs)
      | Option.none => Option.none
  | PyExpr.name _ => Option.none
  | PyExpr.otherExpr => Option.none

def literalEvalList : List PyExpr → Option (List PyVal)
  | [] => some []
  | e :: es =>
      match literal_eval e, literalEvalList es with
      | some v, some vs => some (v :: vs)
      | _, _ => Option.none
end

/-- A statement of a class body: an assignment (list of targets, one value
expression) or anything else. -/
inductive PyStmt where
  | assign : List PyExpr → PyExpr → PyStmt
  | otherStmt : PyStmt

structure ClassDef where
  name : String
  bases : List PyExpr
  body : List PyStmt

/-- A node in `ast.walk` order: a ClassDef or any other node. -/
inductive PyNode where
  | classDef : ClassDef → PyNode
  | otherNode : PyNode

/-- The outcome of `ast.parse` on the companion source text: a SyntaxError,
or the tree's nodes listed in `ast.walk` order. -/
inductive ParsedSource where
  | failed : ParsedSource
  | parsed : List PyNode → ParsedSource

/-- Python dict write `d[k] = v`: overwrite in place, or append a new key. -/
def dictSet {α : Type} (d : List (String × α)) (k : String) (v : α) :
    List (String × α) :=
  if d.any (fun pr => pr.1 == k) then
    d.map (fun pr => if pr.1 == k then (pr.1, v) else pr)
  else
    d ++ [(k, v)]

/-- The inner loop of `_parse_class_attributes` over one Assign statement's
targets: for each plain-name target, record `literal_eval` of the value,
skipping the target when evaluation raises. -/
def processTargets (attrs : List (String × PyVal)) (tgts : List PyExpr)
    (value : PyExpr) : List (String × PyVal) :=
  tgts.foldl
    (fun a t =>
      match t with
      | PyExpr.name key =>
          match literal_eval value with
          | some v => dictSet a key v
          | Option.none => a
      | _ => a)
    attrs

/-- Embedding of `_parse_class_attributes`. -/
def _parse_class_attributes (c : ClassDef) : List (String × PyVal) :=
  c.body.foldl
    (fun attrs stmt =>
      match stmt with
      | PyStmt.assign tgts value => processTargets attrs tgts value
      | PyStmt.otherStmt => attrs)
    []

/-- Whether a ClassDef lists the bare name `ConanFile` among its bases. -/
def hasConanFileBase (c : ClassDef) : Bool :=
  c.bases.any (fun b =>
    match b with
    | PyExpr.name id => id == "ConanFile"
    | _ => false)

/-- The scan of `ast.walk`'s node sequence in `_parse_conanfile`: the first
ClassDef with a `ConanFile` base wins. -/
def findConanClass : List PyNode → Option ClassDef
  | [] => none
  | PyNode.classDef c :: rest =>
      if hasConanFileBase c then some c else findConanClass rest
  | PyNode.otherNode :: rest => findConanClass rest

/-- Embedding of `_parse_conanfile`: empty map on SyntaxError or when no
class derives from `ConanFile`; otherwise the attributes of the first such
class. -/
def _parse_conanfile (src : ParsedSource) : List (String × PyVal) :=
  match src with
  | ParsedSource.failed => []
  | ParsedSource.parsed nodes =>
      match findConanClass nodes with
      | some c => _parse_class_attributes c
      | none => []

/-- Embedding of `_to_list` applied to `attributes.get(key)`: lists and
tuples pass through, a string becomes a singleton, anything else (including
a missing key, Python None) becomes the empty list. -/
def _to_list : Option PyVal → List PyVal
  | some (PyVal.list vs) => vs
  | some (PyVal.tuple vs) => vs
  | some (PyVal.str s) => [PyVal.str s]
  | _ => []

/-!
The driver (`ConanGitParser.iter_parse`).  Directory walking, YAML loading
and the package factory are external collaborators; a package is modelled by
its relative-path components, its already-parsed conandata mapping and the
parse outcome of its companion conanfile.py (`Option.none`: the file does
not exist next to conandata.yml).
-/

structure PackageSource where
  rel_path_parts : List String
  conandata : List (String × Data)
  conanfile : Option ParsedSource

/-- One emitted per-version package record, holding the fields the driver
sets on the cloned PackageMaker. -/
structure OutputRecord where
  name : Option String
  version : String
  summary : Option PyVal
  homepage : Option PyVal
  licenses : List PyVal
  package_type : Option PyVal
  noscheme : Bool
  download_urls : List String
  patch : Option (List String)
  folder : Option String

/-- The body of the driver's per-package `with factory.begin(...)` block, in
source order: extract patches, skip (continue) if conanfile.py is missing,
parse attributes, then one record per `_VersionInfo` with the version's
URLs, the snapshot flag for `cci.` versions, and the patch list when the
version is a key of the patch map. -/
def parse_package (p : PackageSource) : Except StructureError (List OutputRecord) :=
  match _extract_patches p.conandata with
  | Option.none => Except.error StructureError.patchesNotMapping
  | some patches =>
      match p.conanfile with
      | Option.none => Except.ok []
      | some src =>
          let attributes := _parse_conanfile src
          match _extract_version_infos p.conandata with
          | Except.error e => Except.error e
          | Except.ok vis =>
              Except.ok (vis.map (fun vi =>
                OutputRecord.mk
                  (p.rel_path_parts.get? 1)
                  vi.version
                  (dictLookup attributes "description")
                  (dictLookup attributes "homepage")
                  (_to_list (dictLookup attributes "license"))
                  (dictLookup attributes "package_type")
                  (vi.version.startsWith "cci.")
                  (vi.url_infos.map (fun u => u.url))
                  (dictLookup patches vi.version)
                  (p.rel_path_parts.get? 2)))

/-- Modelled from the spec: the `PackageFactory.begin` context manager and
`walk_tree` are not part of the subject file; per the spec all failures are
scoped to one package ("does not abort the batch"), so the driver yields
each package's records in order and a failing package contributes none. -/
def iter_parse (pkgs : List PackageSource) : List OutputRecord :=
  pkgs.foldr
    (fun p acc =>
      (match parse_package p with
       | Except.ok recs => recs
       | Except.error _ => []) ++ acc)
    []

/-- Whether a target expression is the plain name `k` (used to state the
last-write-wins property of the attribute map). -/
def isNameTarget (k : String) (t : PyExpr) : Bool :=
  match t with
  | PyExpr.name n => n == k
  | _ => false

/-- Specification-side formulation, following the spec's words, of which
value the attribute map should hold for a name `k`: the value of the
textually last direct assignment to `k` whose expression is a pure literal
(non-literal assignments are skipped and leave the previous value).  It is
compared with the fold in `_parse_class_attributes` by a refinement
theorem. -/
def lastLiteralWrite (body : List PyStmt) (k : String) : Option PyVal :=
  body.foldl
    (fun acc stmt =>
      match stmt with
      | PyStmt.assign tgts value =>
          if tgts.any (isNameTarget k) then
            match literal_eval value with
            | some v => some v
            | Option.none => acc
          else acc
      | PyStmt.otherStmt => acc)
    none

/-- Whether a document node is a bare scalar (string or non-string). -/
def isScalar : Data → Bool
  | Data.str _ => true
  | Data.other => true
  | Data.seq _ => false
  | Data.map _ => false

/-!
Lemmas.  First a structural induction principle for the nested document
type, then the correspondence between the walker, the document-order path
enumeration and the positional accessor.
-/

theorem data_induct (P : Data → Prop)
    (case_str : ∀ s, P (Data.str s)) (case_other : P Data.other)
    (case_seq : ∀ items, (∀ d, d ∈ items → P d) → P (Data.seq items))
    (case_map : ∀ kvs, (∀ kv, kv ∈ kvs → P kv.2) → P (Data.map kvs)) :
    ∀ d, P d := by
  have key : ∀ n d, sizeOf d ≤ n → P d := by
    intro n
    induction n with
    | zero =>
      intro d hd
      exfalso
      cases d <;> simp_all
    | succ n ih =>
      intro d hd
      cases d with
      | str s => exact case_str s
      | other => exact case_other
      | seq items =>
        apply case_seq
        intro x hx
        apply ih
        have hlt := List.sizeOf_lt_of_mem hx
        simp only [Data.seq.sizeOf_spec] at hd
        omega
      | map kvs =>
        apply case_map
        intro kv hkv
        apply ih
        have hlt := List.sizeOf_lt_of_mem hkv
        have hkv2 : sizeOf kv.2 < sizeOf kv := by
          obtain ⟨a, b⟩ := kv
          simp only [Prod.mk.sizeOf_spec]
          omega
        simp only [Data.map.sizeOf_spec] at hd
        omega
  intro d
  exact key (sizeOf d) d le_rfl

@[simp] theorem keysOf_nil : keysOf [] = [] := rfl

@[simp] theorem keysOf_inSeq_cons (i : Nat) (p : List PathStep) :
    keysOf (PathStep.inSeq i :: p) = keysOf p := rfl

@[simp] theorem keysOf_inMap_cons (i : Nat) (k : String) (p : List PathStep) :
    keysOf (PathStep.inMap i k :: p) = k :: keysOf p := rfl

theorem mem_slpSeq (ds : List Data) (i : Nat) (p : List PathStep) (s : String) :
    (p, s) ∈ slpSeq ds i ↔
      ∃ j d p', ds.get? j = some d ∧ p = PathStep.inSeq (i + j) :: p' ∧
        (p', s) ∈ stringLeafPaths d := by
  induction ds generalizing i with
  | nil => simp [slpSeq]
  | cons d ds ih =>
    simp only [slpSeq, List.mem_append, List.mem_map, ih]
    constructor
    · rintro (⟨⟨p1, s1⟩, hmem, heq⟩ | ⟨j, d', p', hget, hp, hmem⟩)
      · cases heq
        exact ⟨0, d, p1, rfl, by simp, hmem⟩
      · have harith : i + 1 + j = i + (j + 1) := by omega
        rw [harith] at hp
        exact ⟨j + 1, d', p', by simpa using hget, hp, hmem⟩
    · rintro ⟨j, d', p', hget, rfl, hmem⟩
      cases j with
      | zero =>
        left
        simp only [List.get?_cons_zero, Option.some.injEq] at hget
        subst hget
        exact ⟨(p', s), hmem, by simp⟩
      | succ j =>
        right
        have harith : i + (j + 1) = i + 1 + j := by omega
        rw [harith]
        exact ⟨j, d', p', by simpa using hget, rfl, hmem⟩

theorem mem_slpMap (kvs : List (String × Data)) (i : Nat) (p : List PathStep) (s : String) :
    (p, s) ∈ slpMap kvs i ↔
      ∃ j kv p', kvs.get? j = some kv ∧ p = PathStep.inMap (i + j) kv.1 :: p' ∧
        (p', s) ∈ stringLeafPaths kv.2 := by
  induction kvs generalizing i with
  | nil => simp [slpMap]
  | cons kv kvs ih =>
    obtain ⟨k, d⟩ := kv
    simp only [slpMap, List.mem_append, List.mem_map, ih]
    constructor
    · rintro (⟨⟨p1, s1⟩, hmem, heq⟩ | ⟨j, kv', p', hget, hp, hmem⟩)
      · cases heq
        exact ⟨0, (k, d), p1, rfl, by simp, hmem⟩
      · have harith : i + 1 + j = i + (j + 1) := by omega
        rw [harith] at hp
        exact ⟨j + 1, kv', p', by simpa using hget, hp, hmem⟩
    · rintro ⟨j, kv', p', hget, rfl, hmem⟩
      cases j with
      | zero =>
        left
        simp only [List.get?_cons_zero, Option.some.injEq] at hget
        subst hget
        exact ⟨(p', s), hmem, by simp⟩
      | succ j =>
        right
        have harith : i + (j + 1) = i + 1 + j := by omega
        rw [harith]
        exact ⟨j, kv', p', by simpa using hget, rfl, hmem⟩

@[simp] theorem getAt_nil (d : Data) : getAt d [] = some d := by
  cases d <;> rfl

@[simp] theorem getAt_str_cons (s : String) (a : PathStep) (p : List PathStep) :
    getAt (Data.str s) (a :: p) = none := by
  cases a <;> rfl

@[simp] theorem getAt_other_cons (a : PathStep) (p : List PathStep) :
    getAt Data.other (a :: p) = none := by
  cases a <;> rfl

@[simp] theorem getAt_seq_inMap (items : List Data) (i : Nat) (k : String) (p : List PathStep) :
    getAt (Data.seq items) (PathStep.inMap i k :: p) = none := rfl

@[simp] theorem getAt_map_inSeq (kvs : List (String × Data)) (i : Nat) (p : List PathStep) :
    getAt (Data.map kvs) (PathStep.inSeq i :: p) = none := rfl

theorem getAt_seq_some {items : List Data} {i : Nat} {d : Data} (h : items.get? i = some d)
    (p : List PathStep) : getAt (Data.seq items) (PathStep.inSeq i :: p) = getAt d p := by
  have h' := h
  simp only [List.get?_eq_getElem?] at h'
  simp [getAt, h']

theorem getAt_seq_none {items : List Data} {i : Nat} (h : items.get? i = none)
    (p : List PathStep) : getAt (Data.seq items) (PathStep.inSeq i :: p) = none := by
  have h' := h
  simp only [List.get?_eq_getElem?] at h'
  simp [getAt, h']

theorem getAt_map_some {kvs : List (String × Data)} {i : Nat} {kv : String × Data}
    (h : kvs.get? i = some kv) (k : String) (p : List PathStep) :
    getAt (Data.map kvs) (PathStep.inMap i k :: p) = if kv.1 = k then getAt kv.2 p else none := by
  have h' := h
  simp only [List.get?_eq_getElem?] at h'
  simp [getAt, h']

theorem getAt_map_none {kvs : List (String × Data)} {i : Nat} (h : kvs.get? i = none)
    (k : String) (p : List PathStep) :
    getAt (Data.map kvs) (PathStep.inMap i k :: p) = none := by
  have h' := h
  simp only [List.get?_eq_getElem?] at h'
  simp [getAt, h']

theorem mem_stringLeafPaths :
    ∀ d p s, ((p, s) ∈ stringLeafPaths d) ↔ getAt d p = some (Data.str s) := by
  intro d
  induction d using data_induct with
  | case_str s0 =>
    intro p s
    cases p with
    | nil => simp [stringLeafPaths, eq_comm]
    | cons a p' => simp [stringLeafPaths]
  | case_other =>
    intro p s
    cases p with
    | nil => simp [stringLeafPaths]
    | cons a p' => simp [stringLeafPaths]
  | case_seq items ih =>
    intro p s
    rw [show stringLeafPaths (Data.seq items) = slpSeq items 0 from rfl, mem_slpSeq]
    simp only [Nat.zero_add]
    cases p with
    | nil => simp
    | cons a p' =>
      cases a with
      | inSeq j =>
        cases hget : items.get? j with
        | none =>
          rw [getAt_seq_none hget]
          simp only [List.cons.injEq, PathStep.inSeq.injEq]
          constructor
          · rintro ⟨j', d', p'', hget', ⟨rfl, rfl⟩, hmem⟩
            rw [hget] at hget'
            cases hget'
          · intro h
            cases h
        | some d =>
          have hd : d ∈ items := List.get?_mem hget
          rw [getAt_seq_some hget, ← ih d hd p' s]
          constructor
          · rintro ⟨j', d', p'', hget', heq, hmem⟩
            simp only [List.cons.injEq, PathStep.inSeq.injEq] at heq
            obtain ⟨rfl, rfl⟩ := heq
            rw [hget] at hget'
            cases hget'
            exact hmem
          · intro h
            exact ⟨j, d, p', hget, by simp, h⟩
      | inMap j k =>
        rw [getAt_seq_inMap]
        constructor
        · rintro ⟨j', d', p'', hget', heq, hmem⟩
          cases heq
        · intro h
          cases h
  | case_map kvs ih =>
    intro p s
    rw [show stringLeafPaths (Data.map kvs) = slpMap kvs 0 from rfl, mem_slpMap]
    simp only [Nat.zero_add]
    cases p with
    | nil => simp
    | cons a p' =>
      cases a with
      | inMap j k =>
        cases hget : kvs.get? j with
        | none =>
          rw [getAt_map_none hget]
          constructor
          · rintro ⟨j', kv', p'', hget', heq, hmem⟩
            simp only [List.cons.injEq, PathStep.inMap.injEq] at heq
            obtain ⟨⟨rfl, rfl⟩, rfl⟩ := heq
            rw [hget] at hget'
            cases hget'
          · intro h
            cases h
        | some kv =>
          have hkv : kv ∈ kvs := List.get?_mem hget
          rw [getAt_map_some hget]
          constructor
          · rintro ⟨j', kv', p'', hget', heq, hmem⟩
            simp only [List.cons.injEq, PathStep.inMap.injEq] at heq
            obtain ⟨⟨rfl, rfl⟩, rfl⟩ := heq
            rw [hget] at hget'
            cases hget'
            rw [if_pos rfl]
            exact (ih kv hkv p' s).mp hmem
          · intro h
            by_cases hk : kv.1 = k
            · rw [if_pos hk] at h
              exact ⟨j, kv, p', hget, by simp [hk], (ih kv hkv p' s).mpr h⟩
            · rw [if_neg hk] at h
              cases h
      | inSeq j =>
        rw [getAt_map_inSeq]
        constructor
        · rintro ⟨j', kv', p'', hget', heq, hmem⟩
          cases heq
        · intro h
          cases h

theorem traverseSeq_eq (items : List Data) (tags : List String) (i : Nat)
    (IH : ∀ d ∈ items, ∀ tags', _traverse_arbitrary_structure d tags'
      = (stringLeafPaths d).map (fun ps => (tags' ++ keysOf ps.1, ps.2))) :
    traverseSeq items tags = (slpSeq items i).map (fun ps => (tags ++ keysOf ps.1, ps.2)) := by
  induction items generalizing i with
  | nil => simp [traverseSeq, slpSeq]
  | cons d ds ih =>
    simp only [traverseSeq, slpSeq, List.map_append, List.map_map]
    rw [IH d (by simp) tags, ih (i + 1) (fun d hd tags' => IH d (by simp [hd]) tags')]
    congr 1

theorem traverseMap_eq (kvs : List (String × Data)) (tags : List String) (i : Nat)
    (IH : ∀ kv ∈ kvs, ∀ tags', _traverse_arbitrary_structure kv.2 tags'
      = (stringLeafPaths kv.2).map (fun ps => (tags' ++ keysOf ps.1, ps.2))) :
    traverseMap kvs tags = (slpMap kvs i).map (fun ps => (tags ++ keysOf ps.1, ps.2)) := by
  induction kvs generalizing i with
  | nil => simp [traverseMap, slpMap]
  | cons kv kvs ih =>
    obtain ⟨k, d⟩ := kv
    simp only [traverseMap, slpMap, List.map_append, List.map_map]
    rw [IH (k, d) (by simp) (tags ++ [k]), ih (i + 1) (fun kv hkv tags' => IH kv (by simp [hkv]) tags')]
    congr 1
    apply List.map_congr_left
    intro ps _
    simp

theorem traverse_eq_slp :
    ∀ d tags, _traverse_arbitrary_structure d tags = (stringLeafPaths d).map (fun ps => (tags ++ keysOf ps.1, ps.2)) := by
  intro d
  induction d using data_induct with
  | case_str s => intro tags; simp [_traverse_arbitrary_structure, stringLeafPaths]
  | case_other => intro tags; simp [_traverse_arbitrary_structure, stringLeafPaths]
  | case_seq items ih =>
    intro tags
    exact traverseSeq_eq items tags 0 ih
  | case_map kvs ih =>
    intro tags
    exact traverseMap_eq kvs tags 0 ih

@[simp] theorem stepIdx_inSeq (i : Nat) : stepIdx (PathStep.inSeq i) = i := rfl

@[simp] theorem stepIdx_inMap (i : Nat) (k : String) : stepIdx (PathStep.inMap i k) = i := rfl

theorem pathLtb_irrefl : ∀ p : List PathStep, pathLtb p p = false := by
  intro p
  induction p with
  | nil => rfl
  | cons a as ih => simp [pathLtb, ih]

theorem slpSeq_head (ds : List Data) (i : Nat) :
    ∀ pr ∈ slpSeq ds i, ∃ a p', pr.1 = a :: p' ∧ i ≤ stepIdx a := by
  rintro ⟨p, s⟩ hpr
  rw [mem_slpSeq] at hpr
  obtain ⟨j, d, p', _, rfl, _⟩ := hpr
  exact ⟨PathStep.inSeq (i + j), p', rfl, by simp⟩

theorem slpMap_head (kvs : List (String × Data)) (i : Nat) :
    ∀ pr ∈ slpMap kvs i, ∃ a p', pr.1 = a :: p' ∧ i ≤ stepIdx a := by
  rintro ⟨p, s⟩ hpr
  rw [mem_slpMap] at hpr
  obtain ⟨j, kv, p', _, rfl, _⟩ := hpr
  exact ⟨PathStep.inMap (i + j) kv.1, p', rfl, by simp⟩

theorem pairwise_slpSeq (ds : List Data) (i : Nat)
    (IH : ∀ d ∈ ds, List.Pairwise (fun p q => pathLtb p q = true)
      ((stringLeafPaths d).map Prod.fst)) :
    List.Pairwise (fun p q => pathLtb p q = true) ((slpSeq ds i).map Prod.fst) := by
  induction ds generalizing i with
  | nil => simp [slpSeq]
  | cons d ds ih =>
    simp only [slpSeq, List.map_append, List.map_map]
    rw [List.pairwise_append]
    refine ⟨?_, ih (i + 1) (fun d hd => IH d (by simp [hd])), ?_⟩
    · have hbase := IH d (by simp)
      rw [List.pairwise_map] at hbase ⊢
      refine hbase.imp ?_
      intro a b hab
      simpa [pathLtb] using hab
    · intro a ha b hb
      simp only [List.mem_map, Function.comp] at ha
      obtain ⟨ps, _, rfl⟩ := ha
      simp only [List.mem_map] at hb
      obtain ⟨qr, hqr, rfl⟩ := hb
      obtain ⟨b0, q', hq, hidx⟩ := slpSeq_head ds (i + 1) qr hqr
      rw [hq]
      simp only [pathLtb, stepIdx_inSeq, Bool.or_eq_true, decide_eq_true_eq]
      left
      omega

theorem pairwise_slpMap (kvs : List (String × Data)) (i : Nat)
    (IH : ∀ kv ∈ kvs, List.Pairwise (fun p q => pathLtb p q = true)
      ((stringLeafPaths kv.2).map Prod.fst)) :
    List.Pairwise (fun p q => pathLtb p q = true) ((slpMap kvs i).map Prod.fst) := by
  induction kvs generalizing i with
  | nil => simp [slpMap]
  | cons kv kvs ih =>
    obtain ⟨k, d⟩ := kv
    simp only [slpMap, List.map_append, List.map_map]
    rw [List.pairwise_append]
    refine ⟨?_, ih (i + 1) (fun kv hkv => IH kv (by simp [hkv])), ?_⟩
    · have hbase := IH (k, d) (by simp)
      rw [List.pairwise_map] at hbase ⊢
      refine hbase.imp ?_
      intro a b hab
      simpa [pathLtb] using hab
    · intro a ha b hb
      simp only [List.mem_map, Function.comp] at ha
      obtain ⟨ps, _, rfl⟩ := ha
      simp only [List.mem_map] at hb
      obtain ⟨qr, hqr, rfl⟩ := hb
      obtain ⟨b0, q', hq, hidx⟩ := slpMap_head kvs (i + 1) qr hqr
      rw [hq]
      simp only [pathLtb, stepIdx_inMap, Bool.or_eq_true, decide_eq_true_eq]
      left
      omega

theorem pairwise_slp (d : Data) :
    List.Pairwise (fun p q => pathLtb p q = true) ((stringLeafPaths d).map Prod.fst) := by
  induction d using data_induct with
  | case_str s => simp [stringLeafPaths]
  | case_other => simp [stringLeafPaths]
  | case_seq items ih =>
    exact pairwise_slpSeq items 0 ih
  | case_map kvs ih =>
    exact pairwise_slpMap kvs 0 ih

theorem slp_paths_nodup (d : Data) : ((stringLeafPaths d).map Prod.fst).Nodup := by
  refine (pairwise_slp d).imp ?_
  intro p q hpq heq
  rw [heq, pathLtb_irrefl] at hpq
  cases hpq

theorem dictLookup_nil {α : Type} (k : String) : dictLookup ([] : List (String × α)) k = none := rfl

theorem dictLookup_not_mem {α : Type} {d : List (String × α)} {k : String}
    (h : d.any (fun pr => pr.1 == k) = false) : dictLookup d k = none := by
  unfold dictLookup
  cases hf : List.find? (fun pr => pr.1 == k) d with
  | none => rfl
  | some pr =>
    have hp := List.find?_some hf
    have hmem := List.mem_of_find?_eq_some hf
    rw [List.any_eq_false] at h
    exact absurd hp (by simpa using h pr hmem)

theorem dictLookup_append {α : Type} (d1 d2 : List (String × α)) (k : String) :
    dictLookup (d1 ++ d2) k =
      match dictLookup d1 k with
      | some v => some v
      | none => dictLookup d2 k := by
  unfold dictLookup
  rw [List.find?_append]
  cases hf : List.find? (fun pr => pr.1 == k) d1 <;> simp [Option.or]

theorem foldl_dictPush_present (acc : List (String × List String)) (k : String)
    (xs : List String) (h : acc.any (fun pr => pr.1 == k) = false) :
    ∀ cur, xs.foldl (fun r x => dictPush r k x) (acc ++ [(k, cur)]) = acc ++ [(k, cur ++ xs)] := by
  induction xs with
  | nil => intro cur; simp
  | cons x xs ih =>
    intro cur
    have hstep : dictPush (acc ++ [(k, cur)]) k x = acc ++ [(k, cur ++ [x])] := by
      unfold dictPush
      rw [if_pos (by rw [List.any_append]; simp)]
      rw [List.map_append]
      congr 1
      · rw [List.any_eq_false] at h
        have hid : ∀ pr ∈ acc, (if pr.1 == k then (pr.1, pr.2 ++ [x]) else pr) = pr := by
          intro pr hpr
          rw [if_neg]
          simpa using h pr hpr
        rw [List.map_congr_left hid]
        simp
      · simp
    rw [List.foldl_cons, hstep, ih (cur ++ [x])]
    simp

theorem foldl_dictPush_fresh (acc : List (String × List String)) (k : String)
    (xs : List String) (h : acc.any (fun pr => pr.1 == k) = false) :
    xs.foldl (fun r x => dictPush r k x) acc
      = if xs.isEmpty then acc else acc ++ [(k, xs)] := by
  cases xs with
  | nil => rfl
  | cons x xs =>
    rw [List.foldl_cons]
    have hstep : dictPush acc k x = acc ++ [(k, [x])] := by
      unfold dictPush
      rw [if_neg (by simp [h])]
    rw [hstep, foldl_dictPush_present acc k xs h [x]]
    simp

theorem patches_fold_eq (versions : List (String × Data))
    (hnd : (versions.map Prod.fst).Nodup) :
    ∀ acc : List (String × List String),
      (∀ vd ∈ versions, acc.any (fun pr => pr.1 == vd.1) = false) →
      versions.foldl
          (fun res vd => (patchLeaves vd.2).foldl (fun r x => dictPush r vd.1 x) res) acc
        = acc ++ (versions.map (fun vd => (vd.1, patchLeaves vd.2))).filter
            (fun pr => !pr.2.isEmpty) := by
  induction versions with
  | nil => intro acc _; simp
  | cons vd versions ih =>
    intro acc hacc
    have hnd' : (versions.map Prod.fst).Nodup := by
      rw [List.map_cons, List.nodup_cons] at hnd
      exact hnd.2
    have hne : ∀ wd ∈ versions, (vd.1 == wd.1) = false := by
      intro wd hw
      rw [List.map_cons, List.nodup_cons] at hnd
      have hmem : wd.1 ∈ versions.map Prod.fst := List.mem_map_of_mem Prod.fst hw
      rw [beq_eq_false_iff_ne]
      intro heq
      exact hnd.1 (heq ▸ hmem)
    rw [List.foldl_cons]
    rw [foldl_dictPush_fresh acc vd.1 (patchLeaves vd.2) (hacc vd (by simp))]
    by_cases hemp : (patchLeaves vd.2).isEmpty
    · rw [if_pos hemp]
      rw [ih hnd' acc (fun wd hw => hacc wd (by simp [hw]))]
      congr 1
      rw [List.map_cons, List.filter_cons]
      simp [hemp]
    · rw [if_neg hemp]
      rw [ih hnd' (acc ++ [(vd.1, patchLeaves vd.2)]) ?haccnew]
      case haccnew =>
        intro wd hw
        rw [List.any_append]
        have h1 := hacc wd (by simp [hw])
        simp [h1, hne wd hw]
      rw [List.append_assoc]
      congr 1
      rw [List.map_cons, List.filter_cons]
      simp [hemp]

theorem extract_patches_eq {conandata : List (String × Data)}
    {versions : List (String × Data)}
    (h : dictLookup conandata "patches" = some (Data.map versions))
    (hnd : (versions.map Prod.fst).Nodup) :
    _extract_patches conandata
      = some ((versions.map (fun vd => (vd.1, patchLeaves vd.2))).filter
          (fun pr => !pr.2.isEmpty)) := by
  unfold _extract_patches
  rw [h]
  have := patches_fold_eq versions hnd [] (fun vd _ => rfl)
  simpa using this

theorem dictPush_values_ne_nil (d : List (String × List String)) (k : String) (x : String)
    (h : ∀ v l, (v, l) ∈ d → l ≠ []) :
    ∀ v l, (v, l) ∈ dictPush d k x → l ≠ [] := by
  intro v l hm
  unfold dictPush at hm
  by_cases hc : d.any (fun pr => pr.1 == k)
  · rw [if_pos hc] at hm
    obtain ⟨pr, hpr, heq⟩ := List.mem_map.mp hm
    by_cases hk : (pr.1 == k) = true
    · rw [if_pos hk] at heq
      have : l = pr.2 ++ [x] := (Prod.mk.injEq .. ▸ heq).2.symm
      rw [this]
      simp
    · rw [if_neg hk] at heq
      exact h v l (heq ▸ hpr)
  · rw [if_neg hc] at hm
    rcases List.mem_append.mp hm with hm1 | hm2
    · exact h v l hm1
    · simp only [List.mem_singleton, Prod.mk.injEq] at hm2
      rw [hm2.2]
      simp

theorem foldl_dictPush_ne_nil (k : String) (xs : List String) :
    ∀ r : List (String × List String), (∀ v l, (v, l) ∈ r → l ≠ []) →
      ∀ v l, (v, l) ∈ xs.foldl (fun r x => dictPush r k x) r → l ≠ [] := by
  induction xs with
  | nil => intro r h; exact h
  | cons x xs ih =>
    intro r h
    rw [List.foldl_cons]
    exact ih (dictPush r k x) (dictPush_values_ne_nil r k x h)

theorem extract_patches_values_ne_nil {conandata : List (String × Data)}
    {r : List (String × List String)} (h : _extract_patches conandata = some r) :
    ∀ v l, (v, l) ∈ r → l ≠ [] := by
  unfold _extract_patches at h
  cases hl : dictLookup conandata "patches" with
  | none =>
    rw [hl] at h
    simp only [Option.some.injEq] at h
    rw [← h]
    intro v l hm
    cases hm
  | some dd =>
    rw [hl] at h
    cases dd with
    | str s => cases h
    | other => cases h
    | seq items => cases h
    | map versions =>
      simp only [Option.some.injEq] at h
      rw [← h]
      have main : ∀ (vs : List (String × Data)) (acc : List (String × List String)),
          (∀ v l, (v, l) ∈ acc → l ≠ []) →
          ∀ v l, (v, l) ∈ vs.foldl
            (fun res vd => (patchLeaves vd.2).foldl (fun r x => dictPush r vd.1 x) res) acc →
            l ≠ [] := by
        intro vs
        induction vs with
        | nil => intro acc hacc; exact hacc
        | cons vd vs ih =>
          intro acc hacc
          rw [List.foldl_cons]
          exact ih _ (foldl_dictPush_ne_nil vd.1 (patchLeaves vd.2) acc hacc)
      exact main versions [] (by intro v l hm; cases hm)

theorem patchLeaves_eq_slp (d : Data) :
    patchLeaves d
      = ((stringLeafPaths d).filter
          (fun ps => (keysOf ps.1).isEmpty || (keysOf ps.1).getLast? == some "patch_file")).map
        (fun ps => ps.2) := by
  unfold patchLeaves
  rw [traverse_eq_slp d []]
  simp only [List.nil_append]
  rw [List.filter_map, List.map_map]
  rfl

theorem extract_url_infos_eq_slp (d : Data) :
    _extract_url_infos d
      = ((stringLeafPaths d).filter
          (fun ps => (keysOf ps.1).contains "url" && !((keysOf ps.1).contains "sha256"))).map
        (fun ps => UrlInfo.mk (keysOf ps.1) ps.2) := by
  unfold _extract_url_infos
  rw [traverse_eq_slp d []]
  simp only [List.nil_append]
  rw [List.filter_map, List.map_map]
  rfl

theorem dictLookup_cons_pos {α : Type} {pr : String × α} {d : List (String × α)} {k : String}
    (h : (pr.1 == k) = true) : dictLookup (pr :: d) k = some pr.2 := by
  unfold dictLookup
  rw [@List.find?_cons_of_pos _ (fun q => q.1 == k) pr d h]

theorem dictLookup_cons_neg {α : Type} {pr : String × α} {d : List (String × α)} {k : String}
    (h : (pr.1 == k) = false) : dictLookup (pr :: d) k = dictLookup d k := by
  unfold dictLookup
  rw [@List.find?_cons_of_neg _ (fun q => q.1 == k) pr d (by simp [h])]

theorem dictLookup_map_update {α : Type} (d : List (String × α)) (k : String) (v : α) :
    dictLookup (d.map (fun pr => if pr.1 == k then (pr.1, v) else pr)) k
      = if d.any (fun pr => pr.1 == k) then some v else none := by
  induction d with
  | nil => rfl
  | cons pr d ih =>
    by_cases h : (pr.1 == k) = true
    · simp only [List.map_cons, if_pos h, List.any_cons, h, Bool.true_or, if_pos]
      exact dictLookup_cons_pos h
    · simp only [List.map_cons, if_neg h, List.any_cons]
      rw [dictLookup_cons_neg (by simpa using h), ih]
      have h' : (pr.1 == k) = false := by simpa using h
      simp only [h', Bool.false_or]

theorem dictLookup_map_update_other {α : Type} (d : List (String × α)) (key k : String)
    (v : α) (h : (key == k) = false) :
    dictLookup (d.map (fun pr => if pr.1 == key then (pr.1, v) else pr)) k = dictLookup d k := by
  induction d with
  | nil => rfl
  | cons pr d ih =>
    by_cases hp : (pr.1 == key) = true
    · rw [List.map_cons, if_pos hp]
      have hpk : (pr.1 == k) = false := by
        rw [beq_iff_eq] at hp
        rw [hp]
        exact h
      rw [@dictLookup_cons_neg _ (pr.1, v) _ _ hpk, dictLookup_cons_neg hpk]
      exact ih
    · rw [List.map_cons, if_neg hp]
      by_cases hpk : (pr.1 == k) = true
      · rw [dictLookup_cons_pos hpk, dictLookup_cons_pos hpk]
      · rw [dictLookup_cons_neg (by simpa using hpk), dictLookup_cons_neg (by simpa using hpk)]
        exact ih

theorem dictLookup_singleton_ne {α : Type} (key k : String) (v : α) (h : (key == k) = false) :
    dictLookup [(key, v)] k = none := by
  rw [dictLookup_cons_neg h]
  rfl

theorem dictLookup_dictSet_self {α : Type} (d : List (String × α)) (k : String) (v : α) :
    dictLookup (dictSet d k v) k = some v := by
  unfold dictSet
  by_cases h : d.any (fun pr => pr.1 == k)
  · rw [if_pos h, dictLookup_map_update, if_pos h]
  · rw [if_neg h, dictLookup_append]
    rw [dictLookup_not_mem (Bool.eq_false_iff.mpr h)]
    exact dictLookup_cons_pos (by simp)

theorem dictLookup_dictSet_other {α : Type} (d : List (String × α)) (key k : String)
    (v : α) (h : (key == k) = false) :
    dictLookup (dictSet d key v) k = dictLookup d k := by
  unfold dictSet
  by_cases hc : d.any (fun pr => pr.1 == key)
  · rw [if_pos hc]
    exact dictLookup_map_update_other d key k v h
  · rw [if_neg hc, dictLookup_append, dictLookup_singleton_ne key k v h]
    cases hd : dictLookup d k <;> rfl

theorem processTargets_cons (attrs : List (String × PyVal)) (t : PyExpr) (ts : List PyExpr)
    (value : PyExpr) :
    processTargets attrs (t :: ts) value
      = processTargets
          (match t with
           | PyExpr.name key =>
               match literal_eval value with
               | some v => dictSet attrs key v
               | Option.none => attrs
           | _ => attrs) ts value := rfl

theorem processTargets_none (value : PyExpr) (h : literal_eval value = none) :
    ∀ tgts attrs, processTargets attrs tgts value = attrs := by
  intro tgts
  induction tgts with
  | nil => intro attrs; rfl
  | cons t ts ih =>
    intro attrs
    rw [processTargets_cons]
    have hstep : (match t with
        | PyExpr.name key =>
            match literal_eval value with
            | some v => dictSet attrs key v
            | Option.none => attrs
        | _ => attrs) = attrs := by
      cases t <;> simp [h]
    rw [hstep]
    exact ih attrs

theorem dictLookup_processTargets (value : PyExpr) (k : String) :
    ∀ (tgts : List PyExpr) (attrs : List (String × PyVal)),
      dictLookup (processTargets attrs tgts value) k
        = match literal_eval value with
          | some v => if tgts.any (isNameTarget k) then some v else dictLookup attrs k
          | Option.none => dictLookup attrs k := by
  intro tgts
  induction tgts with
  | nil =>
    intro attrs
    cases hle : literal_eval value <;> simp [processTargets]
  | cons t ts ih =>
    intro attrs
    cases hle : literal_eval value with
    | none =>
      rw [processTargets_none value hle (t :: ts) attrs]
    | some v =>
      rw [processTargets_cons]
      cases t with
      | name key =>
        simp only [hle]
        rw [ih (dictSet attrs key v), hle]
        simp only [List.any_cons, isNameTarget]
        by_cases hkey : (key == k) = true
        · simp only [hkey, Bool.true_or, if_pos]
          rw [beq_iff_eq] at hkey
          subst hkey
          by_cases hts : ts.any (isNameTarget key) = true
          · rw [if_pos hts]
          · rw [if_neg hts, dictLookup_dictSet_self]
        · have hkey' : (key == k) = false := by simpa using hkey
          simp only [hkey', Bool.false_or]
          by_cases hts : ts.any (isNameTarget k) = true
          · rw [if_pos hts, if_pos hts]
          · rw [if_neg hts, if_neg hts, dictLookup_dictSet_other attrs key k v hkey']
      | strLit s0 =>
        rw [ih attrs, hle]
        simp [isNameTarget]
      | intLit n =>
        rw [ih attrs, hle]
        simp [isNameTarget]
      | boolLit b =>
        rw [ih attrs, hle]
        simp [isNameTarget]
      | noneLit =>
        rw [ih attrs, hle]
        simp [isNameTarget]
      | listLit es =>
        rw [ih attrs, hle]
        simp [isNameTarget]
      | tupleLit es =>
        rw [ih attrs, hle]
        simp [isNameTarget]
      | otherExpr =>
        rw [ih attrs, hle]
        simp [isNameTarget]

theorem dictLookup_parse_class_attributes (c : ClassDef) (k : String) :
    dictLookup (_parse_class_attributes c) k = lastLiteralWrite c.body k := by
  have main : ∀ (body : List PyStmt) (attrs : List (String × PyVal)),
      dictLookup (body.foldl
          (fun attrs stmt =>
            match stmt with
            | PyStmt.assign tgts value => processTargets attrs tgts value
            | PyStmt.otherStmt => attrs) attrs) k
        = body.foldl
            (fun acc stmt =>
              match stmt with
              | PyStmt.assign tgts value =>
                  if tgts.any (isNameTarget k) then
                    match literal_eval value with
                    | some v => some v
                    | Option.none => acc
                  else acc
              | PyStmt.otherStmt => acc) (dictLookup attrs k) := by
    intro body
    induction body with
    | nil => intro attrs; rfl
    | cons stmt body ih =>
      intro attrs
      rw [List.foldl_cons, List.foldl_cons]
      cases stmt with
      | otherStmt => exact ih attrs
      | assign tgts value =>
        rw [ih (processTargets attrs tgts value)]
        have harg : dictLookup (processTargets attrs tgts value) k
            = (if tgts.any (isNameTarget k) then
                match literal_eval value with
                | some v => some v
                | Option.none => dictLookup attrs k
              else dictLookup attrs k) := by
          rw [dictLookup_processTargets]
          cases hle : literal_eval value with
          | none => cases hc : tgts.any (isNameTarget k) <;> simp
          | some v => rfl
        rw [harg]
  exact main c.body []

theorem parse_class_attributes_skip (nm : String) (bs : List PyExpr)
    (body1 body2 : List PyStmt) (tgts : List PyExpr) (e : PyExpr)
    (h : literal_eval e = none) :
    _parse_class_attributes (ClassDef.mk nm bs (body1 ++ PyStmt.assign tgts e :: body2))
      = _parse_class_attributes (ClassDef.mk nm bs (body1 ++ body2)) := by
  unfold _parse_class_attributes
  simp only [List.foldl_append, List.foldl_cons]
  rw [processTargets_none e h tgts]

theorem findConanClass_none :
    ∀ nodes : List PyNode,
      (∀ c, PyNode.classDef c ∈ nodes → hasConanFileBase c = false) →
      findConanClass nodes = none := by
  intro nodes
  induction nodes with
  | nil => intro _; rfl
  | cons n rest ih =>
    intro h
    cases n with
    | otherNode => exact ih (fun c hc => h c (by simp [hc]))
    | classDef c =>
      show (if hasConanFileBase c then some c else findConanClass rest) = none
      rw [if_neg (by simp [h c (by simp)])]
      exact ih (fun c' hc' => h c' (by simp [hc']))

theorem findConanClass_append_first (pre : List PyNode) (c : ClassDef) (post : List PyNode)
    (hc : hasConanFileBase c = true)
    (hpre : ∀ c', PyNode.classDef c' ∈ pre → hasConanFileBase c' = false) :
    findConanClass (pre ++ PyNode.classDef c :: post) = some c := by
  induction pre with
  | nil =>
    show (if hasConanFileBase c then some c else findConanClass post) = some c
    rw [if_pos hc]
  | cons n rest ih =>
    cases n with
    | otherNode => exact ih (fun c' h => hpre c' (by simp [h]))
    | classDef c' =>
      show (if hasConanFileBase c' then some c' else findConanClass (rest ++ PyNode.classDef c :: post)) = some c
      rw [if_neg (by simp [hpre c' (by simp)])]
      exact ih (fun c'' h => hpre c'' (by simp [h]))

theorem iter_parse_foldr (l : List PackageSource) (b : List OutputRecord) :
    l.foldr
        (fun p acc =>
          (match parse_package p with
           | Except.ok recs => recs
           | Except.error _ => []) ++ acc) b
      = iter_parse l ++ b := by
  induction l with
  | nil => simp [iter_parse]
  | cons p l ih =>
    rw [List.foldr_cons, ih]
    rw [show iter_parse (p :: l)
        = (match parse_package p with
           | Except.ok recs => recs
           | Except.error _ => []) ++ iter_parse l from rfl]
    rw [List.append_assoc]

theorem iter_parse_append (l1 l2 : List PackageSource) :
    iter_parse (l1 ++ l2) = iter_parse l1 ++ iter_parse l2 := by
  show List.foldr _ [] (l1 ++ l2) = _
  rw [List.foldr_append]
  rw [show List.foldr _ [] l2 = iter_parse l2 from rfl]
  exact iter_parse_foldr l1 (iter_parse l2)

theorem parse_package_no_conanfile (p : PackageSource) (h : p.conanfile = none) :
    parse_package p = Except.ok []
      ∨ parse_package p = Except.error StructureError.patchesNotMapping := by
  unfold parse_package
  cases hp : _extract_patches p.conandata with
  | none => right; rfl
  | some patches =>
    left
    rw [h]

theorem parse_package_empty_of_no_conanfile (p : PackageSource) (h : p.conanfile = none) :
    (match parse_package p with
     | Except.ok recs => recs
     | Except.error _ => []) = [] := by
  rcases parse_package_no_conanfile p h with h' | h' <;> rw [h']

theorem dictLookup_some_mem {α : Type} {d : List (String × α)} {k : String} {v : α}
    (h : dictLookup d k = some v) : ∃ k', (k', v) ∈ d := by
  unfold dictLookup at h
  cases hf : List.find? (fun pr => pr.1 == k) d with
  | none => rw [hf] at h; cases h
  | some pr =>
    rw [hf] at h
    simp only [Option.some.injEq] at h
    refine ⟨pr.1, ?_⟩
    have hmem := List.mem_of_find?_eq_some hf
    rw [← h]
    simpa using hmem

theorem parse_package_patch_ne_nil (p : PackageSource) (recs : List OutputRecord)
    (rec : OutputRecord) (l : List String)
    (hok : parse_package p = Except.ok recs) (hrec : rec ∈ recs)
    (hp : rec.patch = some l) : l ≠ [] := by
  unfold parse_package at hok
  cases hpat : _extract_patches p.conandata with
  | none => rw [hpat] at hok; cases hok
  | some patches =>
    rw [hpat] at hok
    cases hcf : p.conanfile with
    | none =>
      rw [hcf] at hok
      simp only [Except.ok.injEq] at hok
      rw [← hok] at hrec
      cases hrec
    | some src =>
      rw [hcf] at hok
      cases hvi : _extract_version_infos p.conandata with
      | error e => rw [hvi] at hok; cases hok
      | ok vis =>
        rw [hvi] at hok
        simp only [Except.ok.injEq] at hok
        rw [← hok] at hrec
        obtain ⟨vi, hvimem, hreceq⟩ := List.mem_map.mp hrec
        rw [← hreceq] at hp
        have hp' : dictLookup patches vi.version = some l := hp
        obtain ⟨k', hmem⟩ := dictLookup_some_mem hp'
        exact extract_patches_values_ne_nil hpat k' l hmem

theorem dictLookup_eq_some_mem {α : Type} {d : List (String × α)} {k : String} {v : α}
    (h : dictLookup d k = some v) : (k, v) ∈ d := by
  unfold dictLookup at h
  cases hf : List.find? (fun pr => pr.1 == k) d with
  | none => rw [hf] at h; cases h
  | some pr =>
    rw [hf] at h
    simp only [Option.some.injEq] at h
    have hpk : (pr.1 == k) = true := @List.find?_some _ (fun q => q.1 == k) pr d hf
    rw [beq_iff_eq] at hpk
    have hmem := List.mem_of_find?_eq_some hf
    have hpr : pr = (k, v) := by
      obtain ⟨a, b⟩ := pr
      simp only at hpk h
      rw [hpk, h]
    rw [← hpr]
    exact hmem

theorem dictLookup_isSome_of_mem {α : Type} {d : List (String × α)} {k : String} {v : α}
    (h : (k, v) ∈ d) : ∃ w, dictLookup d k = some w := by
  unfold dictLookup
  cases hf : List.find? (fun pr => pr.1 == k) d with
  | some pr => exact ⟨pr.2, rfl⟩
  | none =>
    exfalso
    have hsome : (List.find? (fun pr => pr.1 == k) d).isSome = true :=
      List.find?_isSome.mpr ⟨(k, v), h, by simp⟩
    rw [hf] at hsome
    cases hsome

theorem extract_patches_key_iff {conandata : List (String × Data)}
    {versions : List (String × Data)} {r : List (String × List String)} (v : String)
    (h : dictLookup conandata "patches" = some (Data.map versions))
    (hnd : (versions.map Prod.fst).Nodup)
    (hr : _extract_patches conandata = some r) :
    (∃ l, dictLookup r v = some l) ↔ ∃ d, (v, d) ∈ versions ∧ patchLeaves d ≠ [] := by
  rw [extract_patches_eq h hnd] at hr
  simp only [Option.some.injEq] at hr
  subst hr
  constructor
  · rintro ⟨l, hl⟩
    have hmem := dictLookup_eq_some_mem hl
    have hmem' := (List.mem_filter.mp hmem).1
    have hcond := (List.mem_filter.mp hmem).2
    obtain ⟨vd, hvd, heq⟩ := List.mem_map.mp hmem'
    refine ⟨vd.2, ?_, ?_⟩
    · have hv : vd.1 = v := (Prod.mk.injEq .. ▸ heq).1
      rw [← hv]
      simpa using hvd
    · have hlv : patchLeaves vd.2 = l := (Prod.mk.injEq .. ▸ heq).2
      rw [hlv]
      simp only [Bool.not_eq_true'] at hcond
      rw [← hlv] at hcond
      intro hnil
      rw [hlv, hnil] at hcond
      cases hcond
  · rintro ⟨d, hd, hne⟩
    have hmem : (v, patchLeaves d)
        ∈ (versions.map (fun vd => (vd.1, patchLeaves vd.2))).filter (fun pr => !pr.2.isEmpty) := by
      rw [List.mem_filter]
      constructor
      · exact List.mem_map.mpr ⟨(v, d), hd, rfl⟩
      · simp only [Bool.not_eq_true']
        rw [Bool.eq_false_iff]
        intro hbe
        exact hne (by simpa using hbe)
    exact dictLookup_isSome_of_mem hmem

/-!
The claims.
-/

/-- Claim C1: for every nested structure and initial tag prefix, the walker
produces exactly one (tags, value) record per string-scalar leaf reachable
from the root (grounded by the positional accessor `getAt`), in document
order (paths strictly increasing in sibling-lexicographic order, hence each
leaf visited exactly once), with the tag path equal to the prefix followed
by the ordered mapping keys on the path; sequence steps contribute no tags,
and non-string scalars never produce a record. -/
theorem claim_C1 (d : Data) (tags0 : List String) :
    _traverse_arbitrary_structure d tags0
        = (stringLeafPaths d).map (fun ps => (tags0 ++ keysOf ps.1, ps.2))
      ∧ (∀ p s, ((p, s) ∈ stringLeafPaths d) ↔ getAt d p = some (Data.str s))
      ∧ List.Pairwise (fun p q => pathLtb p q = true) ((stringLeafPaths d).map Prod.fst)
      ∧ ((stringLeafPaths d).map Prod.fst).Nodup :=
  ⟨traverse_eq_slp d tags0, fun p s => mem_stringLeafPaths d p s, pairwise_slp d,
    slp_paths_nodup d⟩

/-- Claim C2: the URL collector returns exactly the string leaves whose tag
path contains 'url' and not 'sha256', as UrlInfo records in traversal
order, and no returned record's tag path contains 'sha256'. -/
theorem claim_C2 (d : Data) :
    _extract_url_infos d
        = ((stringLeafPaths d).filter
            (fun ps => (keysOf ps.1).contains "url" && !((keysOf ps.1).contains "sha256"))).map
          (fun ps => UrlInfo.mk (keysOf ps.1) ps.2)
      ∧ ∀ u, u ∈ _extract_url_infos d → ("url" ∈ u.tags ∧ "sha256" ∉ u.tags) := by
  refine ⟨extract_url_infos_eq_slp d, ?_⟩
  intro u hu
  unfold _extract_url_infos at hu
  obtain ⟨pr, hpr, hequ⟩ := List.mem_map.mp hu
  have hf := (List.mem_filter.mp hpr).2
  simp only [Bool.and_eq_true, Bool.not_eq_true'] at hf
  rw [← hequ]
  constructor
  · exact List.elem_iff.mp hf.1
  · intro hmem
    have htrue : pr.1.contains "sha256" = true := List.elem_iff.mpr hmem
    rw [hf.2] at htrue
    cases htrue

theorem claim_C2_witness :
    "url" ∈ (UrlInfo.mk ["url"] "http://x/a.tgz").tags
      ∧ "sha256" ∉ (UrlInfo.mk ["url"] "http://x/a.tgz").tags :=
  (claim_C2 (Data.map [("url", Data.str "http://x/a.tgz"), ("sha256", Data.str "abc")])).2
    (UrlInfo.mk ["url"] "http://x/a.tgz") (by decide)

/-- Claim C3: the patch collector returns an empty map when the top-level
'patches' key is absent; when present and a mapping (with the distinct keys
a Python dict guarantees), the result holds, per version key in iteration
order, exactly the string leaves of that version's sub-structure whose tag
path is empty or ends in 'patch_file' (versions with no such leaf get no
entry, matching the defaultdict); and the per-version leaf condition is
grounded in the path semantics. -/
theorem claim_C3 (conandata : List (String × Data)) :
    (dictLookup conandata "patches" = none → _extract_patches conandata = some [])
      ∧ (∀ versions, dictLookup conandata "patches" = some (Data.map versions) →
          (versions.map Prod.fst).Nodup →
          _extract_patches conandata
            = some ((versions.map (fun vd => (vd.1, patchLeaves vd.2))).filter
                (fun pr => !pr.2.isEmpty)))
      ∧ ∀ dat : Data, patchLeaves dat
          = ((stringLeafPaths dat).filter
              (fun ps => (keysOf ps.1).isEmpty || (keysOf ps.1).getLast? == some "patch_file")).map
            (fun ps => ps.2) := by
  refine ⟨?_, ?_, patchLeaves_eq_slp⟩
  · intro h
    unfold _extract_patches
    rw [h]
  · intro versions h hnd
    exact extract_patches_eq h hnd

theorem claim_C3_witness :
    _extract_patches
        [("patches", Data.map [("1.0", Data.seq [Data.map [("patch_file", Data.str "fix.patch")]])])]
      = some [("1.0", ["fix.patch"])] := by
  have h := (claim_C3
      [("patches", Data.map [("1.0", Data.seq [Data.map [("patch_file", Data.str "fix.patch")]])])]).2.1
    [("1.0", Data.seq [Data.map [("patch_file", Data.str "fix.patch")]])] rfl (by decide)
  rw [h]
  rfl

/-- Claim C4: when the data file's 'sources' value is a mapping, the
version associator succeeds and yields exactly one VersionInfo per key, in
iteration order, carrying that key as the version and the URL collector's
output for that key's subtree. -/
theorem claim_C4 (conandata : List (String × Data)) (versions : List (String × Data))
    (h : dictLookup conandata "sources" = some (Data.map versions)) :
    ∃ vis, _extract_version_infos conandata = Except.ok vis
      ∧ vis.length = versions.length
      ∧ ∀ i vd, versions.get? i = some vd →
          vis.get? i = some (VersionInfo.mk vd.1 (_extract_url_infos vd.2)) := by
  refine ⟨versions.map (fun vd => VersionInfo.mk vd.1 (_extract_url_infos vd.2)), ?_, ?_, ?_⟩
  · unfold _extract_version_infos
    rw [h]
  · rw [List.length_map]
  · intro i vd hget
    rw [List.get?_map, hget]
    rfl

theorem claim_C4_witness :
    ∃ vis, _extract_version_infos
          [("sources", Data.map
            [("1.0", Data.map [("url", Data.str "http://x/a.tgz"), ("sha256", Data.str "abc")])])]
        = Except.ok vis
      ∧ vis.length
          = [("1.0", Data.map [("url", Data.str "http://x/a.tgz"), ("sha256", Data.str "abc")])].length
      ∧ ∀ i vd,
          [("1.0", Data.map [("url", Data.str "http://x/a.tgz"), ("sha256", Data.str "abc")])].get? i
            = some vd →
          vis.get? i = some (VersionInfo.mk vd.1 (_extract_url_infos vd.2)) :=
  claim_C4
    [("sources", Data.map
      [("1.0", Data.map [("url", Data.str "http://x/a.tgz"), ("sha256", Data.str "abc")])])]
    [("1.0", Data.map [("url", Data.str "http://x/a.tgz"), ("sha256", Data.str "abc")])] rfl

/-- Claim C5: when the 'sources' key is absent or its value is not a
mapping, the version associator fails with a StructureError and yields no
VersionInfo; the failure is scoped to that package: the driver's stream over
the remaining packages is unaffected. -/
theorem claim_C5 (conandata : List (String × Data))
    (h : dictLookup conandata "sources" = none
      ∨ ∃ d, dictLookup conandata "sources" = some d ∧ ∀ kvs, d ≠ Data.map kvs) :
    (∃ e, _extract_version_infos conandata = Except.error e)
      ∧ ∀ pre post p, p.conandata = conandata →
          iter_parse (pre ++ p :: post) = iter_parse pre ++ iter_parse post := by
  have herr : ∃ e, _extract_version_infos conandata = Except.error e := by
    rcases h with h0 | ⟨d, hd, hne⟩
    · exact ⟨StructureError.sourcesMissing, by unfold _extract_version_infos; rw [h0]⟩
    · cases d with
      | map kvs => exact absurd rfl (hne kvs)
      | str s =>
        exact ⟨StructureError.sourcesNotMapping, by unfold _extract_version_infos; rw [hd]⟩
      | other =>
        exact ⟨StructureError.sourcesNotMapping, by unfold _extract_version_infos; rw [hd]⟩
      | seq items =>
        exact ⟨StructureError.sourcesNotMapping, by unfold _extract_version_infos; rw [hd]⟩
  refine ⟨herr, ?_⟩
  intro pre post p hpc
  have hempty : (match parse_package p with
      | Except.ok recs => recs
      | Except.error _ => []) = [] := by
    unfold parse_package
    cases hpat : _extract_patches p.conandata with
    | none => rfl
    | some patches =>
      cases hcf : p.conanfile with
      | none => rfl
      | some src =>
        obtain ⟨e, he⟩ := herr
        rw [hpc, he]
  rw [iter_parse_append]
  rw [show iter_parse (p :: post)
      = (match parse_package p with
         | Except.ok recs => recs
         | Except.error _ => []) ++ iter_parse post from rfl]
  rw [hempty, List.nil_append]

theorem claim_C5_witness :
    (∃ e, _extract_version_infos [("name", Data.str "pkg")] = Except.error e)
      ∧ iter_parse
          ([] ++ PackageSource.mk ["recipes", "pkg", "all"] [("name", Data.str "pkg")]
              (some (ParsedSource.parsed [])) :: [])
        = iter_parse [] ++ iter_parse [] :=
  ⟨(claim_C5 [("name", Data.str "pkg")] (Or.inl rfl)).1,
    (claim_C5 [("name", Data.str "pkg")] (Or.inl rfl)).2 [] []
      (PackageSource.mk ["recipes", "pkg", "all"] [("name", Data.str "pkg")]
        (some (ParsedSource.parsed []))) rfl⟩

/-- Claim C6: the literal attribute extractor returns an empty map for
source text that fails to parse and for parsed trees with no class whose
declared bases include the bare name `ConanFile`, raising no error; when a
matching class exists, the first one in walk order is used. -/
theorem claim_C6 :
    _parse_conanfile ParsedSource.failed = []
      ∧ (∀ nodes, (∀ c, PyNode.classDef c ∈ nodes → hasConanFileBase c = false) →
          _parse_conanfile (ParsedSource.parsed nodes) = [])
      ∧ ∀ pre c post, hasConanFileBase c = true →
          (∀ c', PyNode.classDef c' ∈ pre → hasConanFileBase c' = false) →
          _parse_conanfile (ParsedSource.parsed (pre ++ PyNode.classDef c :: post))
            = _parse_class_attributes c := by
  refine ⟨rfl, ?_, ?_⟩
  · intro nodes h
    show (match findConanClass nodes with
          | some c => _parse_class_attributes c
          | none => []) = []
    rw [findConanClass_none nodes h]
  · intro pre c post hc hpre
    show (match findConanClass (pre ++ PyNode.classDef c :: post) with
          | some c => _parse_class_attributes c
          | none => []) = _parse_class_attributes c
    rw [findConanClass_append_first pre c post hc hpre]

theorem claim_C6_witness :
    _parse_conanfile (ParsedSource.parsed
        ([PyNode.otherNode, PyNode.classDef (ClassDef.mk "Base" [PyExpr.name "Object"] [])]
          ++ PyNode.classDef (ClassDef.mk "FooConan" [PyExpr.name "ConanFile"]
              [PyStmt.assign [PyExpr.name "license"] (PyExpr.strLit "MIT")]) :: []))
      = _parse_class_attributes (ClassDef.mk "FooConan" [PyExpr.name "ConanFile"]
          [PyStmt.assign [PyExpr.name "license"] (PyExpr.strLit "MIT")]) := by
  refine claim_C6.2.2
    [PyNode.otherNode, PyNode.classDef (ClassDef.mk "Base" [PyExpr.name "Object"] [])]
    (ClassDef.mk "FooConan" [PyExpr.name "ConanFile"]
      [PyStmt.assign [PyExpr.name "license"] (PyExpr.strLit "MIT")])
    [] (by decide) ?_
  intro c' h
  simp only [List.mem_cons, List.not_mem_nil, or_false] at h
  rcases h with h | h
  · exact absurd h (by simp)
  · simp only [PyNode.classDef.injEq] at h
    subst h
    decide

/-- Claim C7: the class-attribute extractor silently skips any direct
assignment whose expression is not a pure literal (removing such a
statement does not change the result, and no error is possible since the
function is total), and the resulting map is last-write-wins: its value at
any name equals the specification-side `lastLiteralWrite` over the body. -/
theorem claim_C7 :
    (∀ nm bs body1 body2 tgts e, literal_eval e = none →
        _parse_class_attributes (ClassDef.mk nm bs (body1 ++ PyStmt.assign tgts e :: body2))
          = _parse_class_attributes (ClassDef.mk nm bs (body1 ++ body2)))
      ∧ ∀ c k, dictLookup (_parse_class_attributes c) k = lastLiteralWrite c.body k :=
  ⟨fun nm bs body1 body2 tgts e h => parse_class_attributes_skip nm bs body1 body2 tgts e h,
    fun c k => dictLookup_parse_class_attributes c k⟩

theorem claim_C7_witness :
    _parse_class_attributes (ClassDef.mk "Foo" [PyExpr.name "ConanFile"]
        ([PyStmt.assign [PyExpr.name "license"] (PyExpr.strLit "MIT")]
          ++ PyStmt.assign [PyExpr.name "homepage"] PyExpr.otherExpr :: []))
      = _parse_class_attributes (ClassDef.mk "Foo" [PyExpr.name "ConanFile"]
          ([PyStmt.assign [PyExpr.name "license"] (PyExpr.strLit "MIT")] ++ []))
    ∧ dictLookup (_parse_class_attributes (ClassDef.mk "Foo" [PyExpr.name "ConanFile"]
          [PyStmt.assign [PyExpr.name "license"] (PyExpr.strLit "MIT"),
           PyStmt.assign [PyExpr.name "homepage"] PyExpr.otherExpr])) "license"
      = lastLiteralWrite
          [PyStmt.assign [PyExpr.name "license"] (PyExpr.strLit "MIT"),
           PyStmt.assign [PyExpr.name "homepage"] PyExpr.otherExpr] "license" :=
  ⟨claim_C7.1 "Foo" [PyExpr.name "ConanFile"]
      [PyStmt.assign [PyExpr.name "license"] (PyExpr.strLit "MIT")] []
      [PyExpr.name "homepage"] PyExpr.otherExpr rfl,
    claim_C7.2 (ClassDef.mk "Foo" [PyExpr.name "ConanFile"]
        [PyStmt.assign [PyExpr.name "license"] (PyExpr.strLit "MIT"),
         PyStmt.assign [PyExpr.name "homepage"] PyExpr.otherExpr]) "license"⟩

/-- Claim C8: a package whose companion conanfile.py does not exist is
skipped entirely: its per-package block yields no records (either the skip
branch `continue`, or the earlier patches failure, both contribute
nothing), and the driver continues with the remaining packages. -/
theorem claim_C8 (pre post : List PackageSource) (p : PackageSource)
    (h : p.conanfile = none) :
    iter_parse (pre ++ p :: post) = iter_parse pre ++ iter_parse post
      ∧ (parse_package p = Except.ok []
          ∨ parse_package p = Except.error StructureError.patchesNotMapping) := by
  refine ⟨?_, parse_package_no_conanfile p h⟩
  have h1 : iter_parse (p :: post) = iter_parse post := by
    rw [show iter_parse (p :: post)
        = (match parse_package p with
           | Except.ok recs => recs
           | Except.error _ => []) ++ iter_parse post from rfl]
    rw [parse_package_empty_of_no_conanfile p h, List.nil_append]
  rw [iter_parse_append, h1]

theorem claim_C8_witness :
    iter_parse
        ([] ++ PackageSource.mk ["recipes", "pkg", "all"]
            [("sources", Data.map [("1.0", Data.map [("url", Data.str "http://x/a.tgz")])])]
            none :: [])
      = iter_parse [] ++ iter_parse []
      ∧ (parse_package (PackageSource.mk ["recipes", "pkg", "all"]
            [("sources", Data.map [("1.0", Data.map [("url", Data.str "http://x/a.tgz")])])]
            none) = Except.ok []
          ∨ parse_package (PackageSource.mk ["recipes", "pkg", "all"]
            [("sources", Data.map [("1.0", Data.map [("url", Data.str "http://x/a.tgz")])])]
            none) = Except.error StructureError.patchesNotMapping) :=
  claim_C8 [] []
    (PackageSource.mk ["recipes", "pkg", "all"]
      [("sources", Data.map [("1.0", Data.map [("url", Data.str "http://x/a.tgz")])])] none)
    rfl

/-- Claim C9 is false as stated: a string nested only inside sequences is
passed to the callback with an empty tag path even though the whole
document is not a bare scalar (sequences contribute no tags).  Witnessed by
the document `[ "a" ]`; such a leaf is moreover collected by the patch
handler's empty-path rule. -/
theorem claim_C9_counterexample :
    ([], "a") ∈ _traverse_arbitrary_structure (Data.seq [Data.str "a"]) []
      ∧ isScalar (Data.seq [Data.str "a"]) = false
      ∧ patchLeaves (Data.seq [Data.str "a"]) = ["a"] := by
  refine ⟨?_, rfl, rfl⟩
  decide

/-- Claim C9 (amended): a leaf is passed to the callback with an empty tag
path exactly when no mapping key lies on its path from the root, i.e. the
leaf is reachable through sequence nesting alone (the bare-scalar document
being the zero-sequences case); such an empty-path leaf carries no
key-level tag, so the URL collector never returns a leaf with an empty tag
path (the patch collector, by design, does collect empty-path leaves). -/
theorem claim_C9_amended (d : Data) :
    (∀ s, (([], s) ∈ _traverse_arbitrary_structure d []) ↔
        ∃ p, getAt d p = some (Data.str s) ∧ keysOf p = [])
      ∧ ∀ u, u ∈ _extract_url_infos d → u.tags ≠ [] := by
  constructor
  · intro s
    rw [traverse_eq_slp d []]
    constructor
    · intro hmem
      obtain ⟨ps, hps, heq⟩ := List.mem_map.mp hmem
      simp only [List.nil_append, Prod.mk.injEq] at heq
      refine ⟨ps.1, ?_, heq.1⟩
      apply (mem_stringLeafPaths d ps.1 s).mp
      rw [← heq.2]
      simpa using hps
    · rintro ⟨p, hget, hkeys⟩
      apply List.mem_map.mpr
      refine ⟨(p, s), (mem_stringLeafPaths d p s).mpr hget, ?_⟩
      simp [hkeys]
  · intro u hu
    unfold _extract_url_infos at hu
    obtain ⟨pr, hpr, hequ⟩ := List.mem_map.mp hu
    have hf := (List.mem_filter.mp hpr).2
    simp only [Bool.and_eq_true] at hf
    rw [← hequ]
    intro hnil
    have hnil' : pr.1 = [] := hnil
    rw [hnil'] at hf
    cases hf.1

theorem claim_C9_amended_witness :
    ((([], "a") ∈ _traverse_arbitrary_structure (Data.seq [Data.str "a"]) []) ↔
        ∃ p, getAt (Data.seq [Data.str "a"]) p = some (Data.str "a") ∧ keysOf p = [])
      ∧ (UrlInfo.mk ["url"] "u").tags ≠ [] :=
  ⟨(claim_C9_amended (Data.seq [Data.str "a"])).1 "a",
    (claim_C9_amended (Data.map [("url", Data.str "u")])).2 (UrlInfo.mk ["url"] "u")
      (by decide)⟩

/-- Claim C10: the patch map has a key for a version iff at least one
qualifying leaf was collected under it, every stored patch list is
non-empty, and a driver record carries a 'patch' field only with a
non-empty list. -/
theorem claim_C10 :
    (∀ conandata r, _extract_patches conandata = some r →
        ∀ v l, (v, l) ∈ r → l ≠ [])
      ∧ (∀ conandata versions r v,
          dictLookup conandata "patches" = some (Data.map versions) →
          (versions.map Prod.fst).Nodup →
          _extract_patches conandata = some r →
          ((∃ l, dictLookup r v = some l) ↔ ∃ d, (v, d) ∈ versions ∧ patchLeaves d ≠ []))
      ∧ ∀ p recs rec l, parse_package p = Except.ok recs → rec ∈ recs →
          rec.patch = some l → l ≠ [] :=
  ⟨fun _ _ h v l hm => extract_patches_values_ne_nil h v l hm,
    fun _ _ _ v h hnd hr => extract_patches_key_iff v h hnd hr,
    fun p recs rec l hok hrec hp => parse_package_patch_ne_nil p recs rec l hok hrec hp⟩

theorem claim_C10_witness :
    ["fix.patch"] ≠ ([] : List String)
      ∧ ((∃ l, dictLookup [("1.0", ["fix.patch"])] "1.0" = some l) ↔
          ∃ d, ("1.0", d) ∈ [("1.0", Data.seq [Data.map [("patch_file", Data.str "fix.patch")]])]
            ∧ patchLeaves d ≠ []) :=
  ⟨claim_C10.1
      [("patches", Data.map [("1.0", Data.seq [Data.map [("patch_file", Data.str "fix.patch")]])])]
      [("1.0", ["fix.patch"])] rfl "1.0" ["fix.patch"] (by decide),
    claim_C10.2.1
      [("patches", Data.map [("1.0", Data.seq [Data.map [("patch_file", Data.str "fix.patch")]])])]
      [("1.0", Data.seq [Data.map [("patch_file", Data.str "fix.patch")]])]
      [("1.0", ["fix.patch"])] "1.0" rfl (by decide) rfl⟩
